import Mathlib

/-!
Shallow embedding of `bool_circuits/aig.py`: an AIG (and-inverter graph)
circuit model, its evaluator, a canonical duplicate-free enumerator of
circuits, the truth-table semantics, and the exploration driver.

Python frozen tuples become Lean `List`s, Python iterators become the
`List`s of the values they yield (in yield order), and fallible list
indexing (`xs[i]`, which raises `IndexError` when out of range) becomes
`Option`-returning access, so `Lead.eval`, `Gate.eval`, `Circuit.eval`
and `semantics` are `Option`-valued.
-/

namespace AIG

/-- `class LeadType(Enum)`: TRUE = 1, INPUT = 2, GATE = 3. -/
inductive LeadType where
  | TRUE
  | INPUT
  | GATE
deriving DecidableEq, Repr

/-- The `.value` of each `LeadType` enum member. -/
def LeadType.value : LeadType → Nat
  | .TRUE => 1
  | .INPUT => 2
  | .GATE => 3

/-- `@dataclass class Lead`: a value source (constant / input / gate output)
with an optional negation. -/
structure Lead where
  gate_type : LeadType
  index : Nat
  negate : Bool
deriving DecidableEq, Repr

/-- `Lead._tuple`: the comparison key `(gate_type.value, index, negate)`,
with Python booleans compared as the integers 0 and 1. -/
def Lead.key (l : Lead) : Nat × Nat × Nat :=
  (l.gate_type.value, l.index, cond l.negate 1 0)

/-- Python lexicographic comparison of `(Nat, Nat, Nat)` triples. -/
def tripLtb (a b : Nat × Nat × Nat) : Bool :=
  a.1 < b.1 || (a.1 == b.1 && (a.2.1 < b.2.1 || (a.2.1 == b.2.1 && a.2.2 < b.2.2)))

/-- `Lead.__lt__`: compare the `_tuple` keys lexicographically. -/
def Lead.ltb (a b : Lead) : Bool := tripLtb a.key b.key

/-- `Lead.eval(input_vals, gate_vals)`: constant true / input lookup /
gate lookup, XOR-ed with `negate`.  List indexing is `Option`-valued
(Python raises `IndexError` out of range). -/
def Lead.eval (l : Lead) (input_vals gate_vals : List Bool) : Option Bool :=
  (match l.gate_type with
    | .TRUE => some true
    | .INPUT => input_vals.get? l.index
    | .GATE => gate_vals.get? l.index).map (fun v => xor v l.negate)

/-- `MIN_LEAD = Lead(LeadType.TRUE, 0, False)`. -/
def MIN_LEAD : Lead := ⟨.TRUE, 0, false⟩

/-- `@dataclass class Gate`: an AND gate with two input leads. -/
structure Gate where
  input1 : Lead
  input2 : Lead
deriving DecidableEq, Repr

/-- `Gate.eval`: logical AND of the two input leads' values. -/
def Gate.eval (g : Gate) (input_vals gate_vals : List Bool) : Option Bool := do
  let v1 ← g.input1.eval input_vals gate_vals
  let v2 ← g.input2.eval input_vals gate_vals
  pure (v1 && v2)

/-- `Gate._tuple` = `(input2, input1)`; `Gate.__lt__` compares these pairs
lexicographically, each `Lead` by its own key. -/
def Gate.ltb (a b : Gate) : Bool :=
  Lead.ltb a.input2 b.input2 || (a.input2 == b.input2 && Lead.ltb a.input1 b.input1)

/-- `gate > prev` as produced by `functools.total_ordering` from `__lt__`
and the dataclass `__eq__`: `not (a < b or a == b)`. -/
def Gate.gtb (a b : Gate) : Bool := !(Gate.ltb a b || a == b)

/-- `MIN_GATE = Gate(MIN_LEAD, MIN_LEAD)`. -/
def MIN_GATE : Gate := ⟨MIN_LEAD, MIN_LEAD⟩

/-- `@dataclass class Circuit`. -/
structure Circuit where
  num_inputs : Nat
  gates : List Gate
  outputs : List Lead
deriving DecidableEq, Repr

/-- The gate-evaluation loop of `Circuit.eval`: evaluate each gate in
order, appending its bit to the growing `gate_vals` list. -/
def evalGates (input_vals : List Bool) : List Gate → List Bool → Option (List Bool)
  | [], gate_vals => some gate_vals
  | g :: rest, gate_vals =>
    match g.eval input_vals gate_vals with
    | none => none
    | some b => evalGates input_vals rest (gate_vals ++ [b])

/-- `Circuit.eval(input_vals)`: run the gate loop, then evaluate every
output lead against the completed input/gate value lists. -/
def Circuit.eval (c : Circuit) (input_vals : List Bool) : Option (List Bool) := do
  let gate_vals ← evalGates input_vals c.gates []
  c.outputs.mapM (fun l => l.eval input_vals gate_vals)

/-! ## Circuit enumeration -/

/-- `enum_leads(num_inputs, num_gates, allow_const)`, in yield order:
outer loop over `negate in (False, True)`, inner yields the constant lead
(when allowed), then the input leads, then the gate leads. -/
def enum_leads (num_inputs num_gates : Nat) (allow_const : Bool) : List Lead :=
  [false, true].flatMap (fun negate =>
    (if allow_const then [Lead.mk .TRUE 0 negate] else []) ++
    (List.range num_inputs).map (fun k => Lead.mk .INPUT k negate) ++
    (List.range num_gates).map (fun k => Lead.mk .GATE k negate))

/-- `itertools.combinations(xs, 2)`: all pairs `(xs[i], xs[j])` with
`i < j`, in lexicographic index order. -/
def combinations2 : List α → List (α × α)
  | [] => []
  | x :: rest => rest.map (fun y => (x, y)) ++ combinations2 rest

/-- `enum_gate(num_inputs, num_prev_gates, prev_gate)`: all gates built
from a 2-combination of the non-constant leads, filtered to those
strictly greater than `prev_gate`. -/
def enum_gate (num_inputs num_prev_gates : Nat) (prev_gate : Gate) : List Gate :=
  ((combinations2 (enum_leads num_inputs num_prev_gates false)).map
      (fun p => Gate.mk p.1 p.2)).filter (fun g => Gate.gtb g prev_gate)

/-- `enum_gates(num_inputs, num_gates)`: canonical-ordered gate lists of
exactly `num_gates` gates.  In the recursive case the Python code extends
each shorter list `sub` by a gate above `sub[-1]`; `sub` is always
nonempty there (it comes from `enum_gates` at count ≥ 1), so `sub[-1]` is
embedded as `getLastD` with an arbitrary default. -/
def enum_gates (num_inputs : Nat) : Nat → List (List Gate)
  | 0 => [[]]
  | 1 => (enum_gate num_inputs 0 MIN_GATE).map (fun g => [g])
  | num_gates + 2 =>
    (enum_gates num_inputs (num_gates + 1)).flatMap (fun sub =>
      (enum_gate num_inputs (num_gates + 1) (sub.getLastD MIN_GATE)).map
        (fun g => sub ++ [g]))

/-- `itertools.product(xs, repeat=n)`, first coordinate slowest. -/
def prodRep (xs : List α) : Nat → List (List α)
  | 0 => [[]]
  | n + 1 => xs.flatMap (fun x => (prodRep xs n).map (fun rest => x :: rest))

/-- `enum_outputs(num_inputs, num_outputs, num_gates)`: every assignment
of an available lead (constants allowed) to each output. -/
def enum_outputs (num_inputs num_outputs num_gates : Nat) : List (List Lead) :=
  prodRep (enum_leads num_inputs num_gates true) num_outputs

/-- `enum_circuits(num_inputs, num_outputs, num_gates)`: the Cartesian
combination of gate lists and output assignments. -/
def enum_circuits (num_inputs num_outputs num_gates : Nat) : List Circuit :=
  (enum_gates num_inputs num_gates).flatMap (fun gates =>
    (enum_outputs num_inputs num_outputs num_gates).map
      (fun outputs => Circuit.mk num_inputs gates outputs))

/-! ## Circuit evaluation -/

/-- A `BoolFunc` is the full truth table: one row per input assignment. -/
abbrev BoolFunc := List (List Bool)

/-- `semantics(circuit)`: evaluate the circuit over all `2^n` input
assignments produced by `itertools.product((False, True), repeat=n)`. -/
def semantics (c : Circuit) : Option BoolFunc :=
  (prodRep [false, true] c.num_inputs).mapM (fun assignments => c.eval assignments)

/-! ## Well-formedness (the feed-forward invariant) -/

/-- A lead is in range for a circuit with `ni` inputs when `ng` gate
values are available. -/
def leadOK (ni ng : Nat) (l : Lead) : Prop :=
  (l.gate_type = .INPUT → l.index < ni) ∧ (l.gate_type = .GATE → l.index < ng)

instance (ni ng : Nat) (l : Lead) : Decidable (leadOK ni ng l) := by
  unfold leadOK; infer_instance

/-- The gate at position `k` may reference only inputs and the `k`
previous gates. -/
def gateOK (ni k : Nat) (g : Gate) : Prop := leadOK ni k g.input1 ∧ leadOK ni k g.input2

instance (ni k : Nat) (g : Gate) : Decidable (gateOK ni k g) := by
  unfold gateOK; infer_instance

/-- The feed-forward invariant of a `Circuit`: each gate references only
strictly earlier gates (and in-range inputs), each output any gate. -/
def feedForward (c : Circuit) : Prop :=
  (∀ k (h : k < c.gates.length), gateOK c.num_inputs k (c.gates.get ⟨k, h⟩)) ∧
  (∀ l ∈ c.outputs, leadOK c.num_inputs c.gates.length l)

instance (c : Circuit) : Decidable (feedForward c) := by
  unfold feedForward; exact instDecidableAnd

/-! ## The explorer (`explore_semantics`) -/

/-- The mutable state of `explore_semantics`: the accumulating set of
discovered functions (an insertion-ordered duplicate-free list), the
circuits-visited counter, and the progress records printed so far, each
`(num_gates, len(funcs), num_circuits)`. -/
structure ExploreState where
  funcs : List BoolFunc
  num_circuits : Nat
  reports : List (Nat × Nat × Nat)
deriving DecidableEq, Repr

/-- `funcs.add(f)`: set insertion. -/
def addFunc (s : List BoolFunc) (f : BoolFunc) : List BoolFunc :=
  if f ∈ s then s else s ++ [f]

/-- The inner `for c in enum_circuits(...)` loop of `explore_semantics`:
insert each circuit's semantics into the set and count it.  `semantics`
is `Option`-valued, so the loop propagates failure. -/
def exploreCircuits : List Circuit → ExploreState → Option ExploreState
  | [], s => some s
  | c :: rest, s =>
    match semantics c with
    | none => none
    | some f =>
      exploreCircuits rest
        { s with funcs := addFunc s.funcs f, num_circuits := s.num_circuits + 1 }

/-- One iteration of the `for num_gates in itertools.count(0)` loop of
`explore_semantics`: visit every circuit with exactly `g` gates, then
emit one progress record. -/
def explore_step (n m g : Nat) (s : ExploreState) : Option ExploreState :=
  (exploreCircuits (enum_circuits n m g) s).map
    (fun s2 => { s2 with reports := s2.reports ++ [(g, s2.funcs.length, s2.num_circuits)] })

/-- The explorer's execution trace: the state after the first `k`
iterations of the loop.  The source iterates `itertools.count(0)` with no
`break` or `return` inside the loop, so iteration `k` (processing gate
count `k`) is executed for every `k`. -/
def explore_trace (n m : Nat) : Nat → Option ExploreState
  | 0 => some ⟨[], 0, []⟩
  | k + 1 => (explore_trace n m k).bind (explore_step n m k)

/-! ## Auxiliary notions used to state the claims -/

/-- The XOR truth table for two inputs, rows in assignment order
00, 01, 10, 11. -/
def xorFunc : BoolFunc := [[false], [true], [true], [false]]

/-- The `n`-bit binary expansion of `k`, most significant bit first,
`false` for 0 and `true` for 1. -/
def natToBits : Nat → Nat → List Bool
  | 0, _ => []
  | n + 1, k => if 2 ^ n ≤ k then true :: natToBits n (k - 2 ^ n) else false :: natToBits n k

/-- The position key of a lead inside `enum_leads`: the yield order is
lexicographic in `(negate, gate_type.value, index)`. -/
def enumKey (l : Lead) : Nat × Nat × Nat :=
  (cond l.negate 1 0, l.gate_type.value, l.index)

/-- The strict yield order of `enum_leads`: lexicographic in
`(negate, gate_type.value, index)`. -/
def leadEnumLt (a b : Lead) : Prop := tripLtb (enumKey a) (enumKey b) = true

/-- Gate computing `A AND B`. -/
def xorG0 : Gate := ⟨⟨.INPUT, 0, false⟩, ⟨.INPUT, 1, false⟩⟩

/-- Gate computing `(NOT A) AND (NOT B)`. -/
def xorG1 : Gate := ⟨⟨.INPUT, 0, true⟩, ⟨.INPUT, 1, true⟩⟩

/-- Gate computing `(NOT gate0) AND (NOT gate1)`, i.e. `A XOR B`. -/
def xorG2 : Gate := ⟨⟨.GATE, 0, true⟩, ⟨.GATE, 1, true⟩⟩

/-- The circuit at index 1841 of `enum_circuits 2 1 3`, computing XOR,
wired plain to the single output. -/
def xorCircuit : Circuit := ⟨2, [xorG0, xorG1, xorG2], [⟨.GATE, 2, false⟩]⟩

/-- Two gates are the same up to AND-commutativity (swapping the two
input leads). -/
def sameUPair (g g' : Gate) : Prop :=
  (g.input1 = g'.input1 ∧ g.input2 = g'.input2) ∨
  (g.input1 = g'.input2 ∧ g.input2 = g'.input1)

instance (g g' : Gate) : Decidable (sameUPair g g') := by
  unfold sameUPair; infer_instance

/-! ## Order lemmas -/

theorem tripLtb_irrefl (a : Nat × Nat × Nat) : tripLtb a a = false := by
  simp [tripLtb]

theorem tripLtb_asymm {a b : Nat × Nat × Nat} (h1 : tripLtb a b = true)
    (h2 : tripLtb b a = true) : False := by
  rcases a with ⟨a1, a2, a3⟩
  rcases b with ⟨b1, b2, b3⟩
  simp only [tripLtb, Bool.or_eq_true, Bool.and_eq_true, decide_eq_true_eq,
    beq_iff_eq] at h1 h2
  omega

theorem tripLtb_total {a b : Nat × Nat × Nat} (h : tripLtb a b = false) :
    a = b ∨ tripLtb b a = true := by
  rcases a with ⟨a1, a2, a3⟩
  rcases b with ⟨b1, b2, b3⟩
  simp only [tripLtb, Bool.or_eq_false_iff, Bool.and_eq_false_iff,
    Bool.or_eq_true, Bool.and_eq_true, decide_eq_true_eq, decide_eq_false_iff_not,
    beq_iff_eq, beq_eq_false_iff_ne, ne_eq, Prod.mk.injEq] at h ⊢
  omega

theorem LeadType.value_inj : ∀ {t1 t2 : LeadType}, t1.value = t2.value → t1 = t2 := by
  intro t1 t2
  cases t1 <;> cases t2 <;> simp [LeadType.value]

theorem Lead.key_inj {a b : Lead} (h : a.key = b.key) : a = b := by
  rcases a with ⟨t1, i1, n1⟩
  rcases b with ⟨t2, i2, n2⟩
  simp only [Lead.key, Prod.mk.injEq] at h
  obtain ⟨h1, h2, h3⟩ := h
  have ht := LeadType.value_inj h1
  cases n1 <;> cases n2 <;> simp_all

theorem Lead.ltb_total {a b : Lead} (h : Lead.ltb a b = false) :
    a = b ∨ Lead.ltb b a = true := by
  rcases tripLtb_total h with heq | hlt
  · exact Or.inl (Lead.key_inj heq)
  · exact Or.inr hlt

/-- `functools.total_ordering`'s `a > b` implies `b < a` for this order. -/
theorem Gate.gtb_ltb {a b : Gate} (h : Gate.gtb a b = true) : Gate.ltb b a = true := by
  have h0 : (Gate.ltb a b || a == b) = false := by
    cases hx : (Gate.ltb a b || a == b)
    · rfl
    · rw [Gate.gtb, hx] at h
      exact absurd h (by simp)
  rcases Bool.or_eq_false_iff.mp h0 with ⟨hlt, heq⟩
  have hne : a ≠ b := by
    intro hab; rw [hab] at heq; simp at heq
  rcases Bool.or_eq_false_iff.mp hlt with ⟨h2, h12⟩
  rcases Lead.ltb_total h2 with h2eq | h2lt
  · have h2beq : (a.input2 == b.input2) = true := beq_iff_eq.mpr h2eq
    rw [h2beq] at h12
    simp only [Bool.true_and] at h12
    rcases Lead.ltb_total h12 with h1eq | h1lt
    · exact absurd (by cases a; cases b; simp_all) hne
    · unfold Gate.ltb
      rw [beq_iff_eq.mpr h2eq.symm, h1lt]
      simp
  · unfold Gate.ltb
    rw [h2lt]
    simp

/-! ## Enumeration lemmas -/

theorem mem_enum_leads {ni ng : Nat} {ac : Bool} {l : Lead} (h : l ∈ enum_leads ni ng ac) :
    (l.gate_type = .INPUT → l.index < ni) ∧ (l.gate_type = .GATE → l.index < ng) ∧
    (ac = false → l.gate_type ≠ .TRUE) := by
  rcases l with ⟨t, i, nb⟩
  cases ac <;> cases t <;>
    simp_all [enum_leads] <;> omega

theorem mem_enum_leads_negate {ni ng : Nat} {ac neg : Bool} {l : Lead}
    (h : l ∈ (if ac then [Lead.mk .TRUE 0 neg] else []) ++
      (List.range ni).map (fun k => Lead.mk .INPUT k neg) ++
      (List.range ng).map (fun k => Lead.mk .GATE k neg)) : l.negate = neg := by
  rcases l with ⟨t, i, nb⟩
  cases ac <;> cases t <;> simp_all <;>
    (obtain ⟨a, ha, hai, h2⟩ := h; exact h2.symm)

theorem tripLtb_of1 {x1 y1 x2 y2 x3 y3 : Nat} (h : x1 < y1) :
    tripLtb (x1, x2, x3) (y1, y2, y3) = true := by
  simp [tripLtb]; omega

theorem tripLtb_of2 {x1 x2 y2 x3 y3 : Nat} (h : x2 < y2) :
    tripLtb (x1, x2, x3) (x1, y2, y3) = true := by
  simp [tripLtb]; omega

theorem tripLtb_of3 {x1 x2 x3 y3 : Nat} (h : x3 < y3) :
    tripLtb (x1, x2, x3) (x1, x2, y3) = true := by
  simp [tripLtb]; omega

theorem pairwise_enum_leads_block (ni ng : Nat) (ac neg : Bool) :
    (((if ac then [Lead.mk .TRUE 0 neg] else []) ++
      (List.range ni).map (fun k => Lead.mk .INPUT k neg) ++
      (List.range ng).map (fun k => Lead.mk .GATE k neg)).Pairwise leadEnumLt) := by
  have hin : ((List.range ni).map (fun k => Lead.mk .INPUT k neg)).Pairwise leadEnumLt := by
    rw [List.pairwise_map]
    exact (List.pairwise_lt_range ni).imp (fun h => tripLtb_of3 h)
  have hga : ((List.range ng).map (fun k => Lead.mk .GATE k neg)).Pairwise leadEnumLt := by
    rw [List.pairwise_map]
    exact (List.pairwise_lt_range ng).imp (fun h => tripLtb_of3 h)
  rw [List.append_assoc, List.pairwise_append]
  refine ⟨?_, ?_, ?_⟩
  · cases ac <;> simp
  · rw [List.pairwise_append]
    refine ⟨hin, hga, ?_⟩
    intro a ha b hb
    simp only [List.mem_map, List.mem_range] at ha hb
    obtain ⟨j, _, rfl⟩ := ha
    obtain ⟨k, _, rfl⟩ := hb
    exact tripLtb_of2 (by simp [LeadType.value])
  · intro a ha b hb
    cases ac
    · simp at ha
    · have ha2 : a = Lead.mk .TRUE 0 neg := by simpa using ha
      subst ha2
      simp only [List.mem_append, List.mem_map, List.mem_range] at hb
      rcases hb with ⟨k, _, rfl⟩ | ⟨k, _, rfl⟩ <;>
        exact tripLtb_of2 (by simp [LeadType.value])

theorem mem_combinations2 {xs : List α} {p : α × α} (h : p ∈ combinations2 xs) :
    p.1 ∈ xs ∧ p.2 ∈ xs := by
  induction xs with
  | nil => simp [combinations2] at h
  | cons x rest ih =>
    simp only [combinations2, List.mem_append, List.mem_map] at h
    rcases h with ⟨y, hy, rfl⟩ | h
    · exact ⟨List.mem_cons_self _ _, List.mem_cons_of_mem _ hy⟩
    · obtain ⟨h1, h2⟩ := ih h
      exact ⟨List.mem_cons_of_mem _ h1, List.mem_cons_of_mem _ h2⟩

theorem pairwise_mem_combinations2 {R : α → α → Prop} :
    ∀ {xs : List α}, xs.Pairwise R → ∀ {p : α × α}, p ∈ combinations2 xs → R p.1 p.2 := by
  intro xs
  induction xs with
  | nil => intro _ p hp; simp [combinations2] at hp
  | cons x rest ih =>
    intro h p hp
    rw [List.pairwise_cons] at h
    obtain ⟨hx, hrest⟩ := h
    simp only [combinations2, List.mem_append, List.mem_map] at hp
    rcases hp with ⟨y, hy, rfl⟩ | hp
    · exact hx y hy
    · exact ih hrest hp

theorem combinations2_complete {xs : List α} {a b : α} (ha : a ∈ xs) (hb : b ∈ xs)
    (hne : a ≠ b) : (a, b) ∈ combinations2 xs ∨ (b, a) ∈ combinations2 xs := by
  induction xs with
  | nil => simp at ha
  | cons x rest ih =>
    rcases List.mem_cons.mp ha with rfl | ha2
    · have hb2 : b ∈ rest := by
        rcases List.mem_cons.mp hb with rfl | h
        · exact absurd rfl hne
        · exact h
      left
      simp only [combinations2, List.mem_append, List.mem_map]
      exact Or.inl ⟨b, hb2, rfl⟩
    · rcases List.mem_cons.mp hb with rfl | hb2
      · right
        simp only [combinations2, List.mem_append, List.mem_map]
        exact Or.inl ⟨a, ha2, rfl⟩
      · rcases ih ha2 hb2 with h | h
        · left
          simp only [combinations2, List.mem_append]
          exact Or.inr h
        · right
          simp only [combinations2, List.mem_append]
          exact Or.inr h

theorem pairwise_combinations2_nodup {R : α → α → Prop} (hirr : ∀ a, ¬ R a a) :
    ∀ {xs : List α}, xs.Pairwise R →
      (combinations2 xs).Pairwise
        (fun p q => ¬ ((p.1 = q.1 ∧ p.2 = q.2) ∨ (p.1 = q.2 ∧ p.2 = q.1))) := by
  intro xs
  induction xs with
  | nil => intro _; simp [combinations2]
  | cons x rest ih =>
    intro h
    rw [List.pairwise_cons] at h
    obtain ⟨hx, hrest⟩ := h
    unfold combinations2
    rw [List.pairwise_append]
    refine ⟨?_, ih hrest, ?_⟩
    · rw [List.pairwise_map]
      refine hrest.imp_of_mem ?_
      intro y1 y2 hy1 _ hR hcon
      rcases hcon with ⟨-, h2⟩ | ⟨h1, h2⟩
      · have h2e : y1 = y2 := h2
        rw [h2e] at hR
        exact hirr y2 hR
      · have h1e : x = y2 := h1
        have h2e : y1 = x := h2
        rw [h2e, h1e] at hR
        exact hirr y2 hR
    · intro p hp q hq
      rw [List.mem_map] at hp
      obtain ⟨y, hy, rfl⟩ := hp
      obtain ⟨hq1, hq2⟩ := mem_combinations2 hq
      intro hcon
      rcases hcon with ⟨h1, -⟩ | ⟨h1, -⟩
      · have hx1 : x = q.1 := h1
        rw [← hx1] at hq1
        exact hirr x (hx x hq1)
      · have hx1 : x = q.2 := h1
        rw [← hx1] at hq2
        exact hirr x (hx x hq2)

theorem pairwise_enum_leads (ni ng : Nat) (ac : Bool) :
    (enum_leads ni ng ac).Pairwise leadEnumLt := by
  unfold enum_leads
  simp only [List.flatMap_cons, List.flatMap_nil, List.append_nil]
  rw [List.pairwise_append]
  refine ⟨pairwise_enum_leads_block ni ng ac false,
         pairwise_enum_leads_block ni ng ac true, ?_⟩
  intro a ha b hb
  have hna : a.negate = false := mem_enum_leads_negate ha
  have hnb : b.negate = true := mem_enum_leads_negate hb
  unfold leadEnumLt enumKey
  rw [hna, hnb]
  exact tripLtb_of1 (by simp)

theorem enumKey_inj {a b : Lead} (h : enumKey a = enumKey b) : a = b := by
  rcases a with ⟨t1, i1, n1⟩
  rcases b with ⟨t2, i2, n2⟩
  simp only [enumKey, Prod.mk.injEq] at h
  obtain ⟨h1, h2, h3⟩ := h
  have ht := LeadType.value_inj h2
  cases n1 <;> cases n2 <;> simp_all

theorem leadEnumLt_irrefl (a : Lead) : ¬ leadEnumLt a a := by
  unfold leadEnumLt
  rw [tripLtb_irrefl]
  simp

theorem leadEnumLt_asymm {a b : Lead} (h1 : leadEnumLt a b) (h2 : leadEnumLt b a) :
    False :=
  tripLtb_asymm h1 h2

/-- Everything known about a single yielded gate: its leads come from the
non-constant lead pool, it is above the floor gate, and its two leads are
in strict `enum_leads` yield order. -/
theorem mem_enum_gate {ni p : Nat} {prev g : Gate} (h : g ∈ enum_gate ni p prev) :
    g.input1 ∈ enum_leads ni p false ∧ g.input2 ∈ enum_leads ni p false ∧
    Gate.gtb g prev = true ∧ leadEnumLt g.input1 g.input2 := by
  unfold enum_gate at h
  rw [List.mem_filter] at h
  obtain ⟨hmem, hgt⟩ := h
  rw [List.mem_map] at hmem
  obtain ⟨pr, hpr, rfl⟩ := hmem
  obtain ⟨h1, h2⟩ := mem_combinations2 hpr
  exact ⟨h1, h2, hgt, pairwise_mem_combinations2 (pairwise_enum_leads ni p false) hpr⟩

/-- Two gates in canonical lead orientation that agree up to
AND-commutativity are equal. -/
theorem oriented_sameUPair_eq {g g' : Gate} (h : leadEnumLt g.input1 g.input2)
    (h' : leadEnumLt g'.input1 g'.input2) (hs : sameUPair g g') : g = g' := by
  rcases hs with ⟨h1, h2⟩ | ⟨h1, h2⟩
  · cases g; cases g'; simp_all
  · rw [h1, h2] at h
    exact absurd h' (fun hc => leadEnumLt_asymm h hc)

/-- Structure of every gate list yielded by `enum_gates`: it has exactly
`t` gates, the gate at position `k` was yielded by `enum_gate` with `k`
previous gates, and the list is strictly increasing in the gate order. -/
theorem enum_gates_spec {ni : Nat} : ∀ (t : Nat) (gs : List Gate), gs ∈ enum_gates ni t →
    gs.length = t ∧
    (∀ k (h : k < gs.length), ∃ prev, gs.get ⟨k, h⟩ ∈ enum_gate ni k prev) ∧
    List.Chain' (fun a b => Gate.ltb a b = true) gs := by
  intro t
  induction t using Nat.strong_induction_on with
  | _ t ih =>
    match t with
    | 0 =>
      intro gs hgs
      simp only [enum_gates, List.mem_singleton] at hgs
      subst hgs
      refine ⟨rfl, ?_, by simp⟩
      intro k hk
      simp at hk
    | 1 =>
      intro gs hgs
      simp only [enum_gates, List.mem_map] at hgs
      obtain ⟨g, hg, rfl⟩ := hgs
      refine ⟨rfl, ?_, by simp⟩
      intro k hk
      have hk0 : k = 0 := by simpa using hk
      subst hk0
      exact ⟨MIN_GATE, hg⟩
    | t + 2 =>
      intro gs hgs
      simp only [enum_gates, List.mem_flatMap, List.mem_map] at hgs
      obtain ⟨sub, hsub, g, hg, rfl⟩ := hgs
      obtain ⟨hlen, hpos, hchain⟩ := ih (t + 1) (by omega) sub hsub
      refine ⟨by simp [hlen], ?_, ?_⟩
      · intro k hk
        by_cases hky : k < sub.length
        · obtain ⟨prev, hprev⟩ := hpos k hky
          exact ⟨prev, by rw [List.get_append k hky]; exact hprev⟩
        · have hkeq : sub.length = k := by
            rw [List.length_append, List.length_singleton] at hk
            omega
          refine ⟨sub.getLastD MIN_GATE, ?_⟩
          have hget : (sub ++ [g]).get ⟨k, hk⟩ = g := List.get_of_append rfl hkeq
          rw [hget]
          have hk2 : k = t + 1 := by omega
          rw [hk2]
          exact hg
      · rw [List.chain'_append]
        refine ⟨hchain, List.chain'_singleton g, ?_⟩
        intro x hx y hy
        have hyg : g = y := by simpa using hy
        subst hyg
        have hxv : x = sub.getLastD MIN_GATE := by
          rw [List.getLastD_eq_getLast? MIN_GATE sub]
          have : sub.getLast? = some x := hx
          rw [this]
          rfl
        subst hxv
        exact Gate.gtb_ltb (mem_enum_gate hg).2.2.1

/-- Every row of `prodRep xs n` has length `n` and entries from `xs`. -/
theorem mem_prodRep {xs : List α} : ∀ {n : Nat} {l : List α}, l ∈ prodRep xs n →
    l.length = n ∧ ∀ a ∈ l, a ∈ xs := by
  intro n
  induction n with
  | zero =>
    intro l hl
    simp only [prodRep, List.mem_singleton] at hl
    subst hl
    simp
  | succ n ihn =>
    intro l hl
    simp only [prodRep, List.mem_flatMap, List.mem_map] at hl
    obtain ⟨x, hx, rest, hrest, rfl⟩ := hl
    obtain ⟨h1, h2⟩ := ihn hrest
    refine ⟨by simp [h1], ?_⟩
    intro a ha
    rcases List.mem_cons.mp ha with rfl | ha2
    · exact hx
    · exact h2 a ha2

/-! ## Evaluator totality -/

theorem lead_eval_total {ni ng : Nat} {l : Lead} (h : leadOK ni ng l) {iv gv : List Bool}
    (hiv : ni ≤ iv.length) (hgv : ng ≤ gv.length) : ∃ b, l.eval iv gv = some b := by
  obtain ⟨hI, hG⟩ := h
  unfold Lead.eval
  rcases l with ⟨t, i, nb⟩
  cases t
  · exact ⟨xor true nb, rfl⟩
  · have hlt : i < iv.length := lt_of_lt_of_le (hI rfl) hiv
    exact ⟨_, by rw [List.get?_eq_get hlt]; rfl⟩
  · have hlt : i < gv.length := lt_of_lt_of_le (hG rfl) hgv
    exact ⟨_, by rw [List.get?_eq_get hlt]; rfl⟩

theorem gate_eval_total {ni ng : Nat} {g : Gate} (h : gateOK ni ng g) {iv gv : List Bool}
    (hiv : ni ≤ iv.length) (hgv : ng ≤ gv.length) : ∃ b, g.eval iv gv = some b := by
  obtain ⟨b1, hb1⟩ := lead_eval_total h.1 hiv hgv
  obtain ⟨b2, hb2⟩ := lead_eval_total h.2 hiv hgv
  exact ⟨b1 && b2, by unfold Gate.eval; rw [hb1, hb2]; rfl⟩

theorem evalGates_total {ni : Nat} {iv : List Bool} (hiv : iv.length = ni) :
    ∀ (gates : List Gate) (acc : List Bool),
      (∀ k (hk : k < gates.length), gateOK ni (acc.length + k) (gates.get ⟨k, hk⟩)) →
      ∃ gv, evalGates iv gates acc = some gv ∧ gv.length = acc.length + gates.length := by
  intro gates
  induction gates with
  | nil => intro acc _; exact ⟨acc, rfl, by simp⟩
  | cons g rest ihg =>
    intro acc hok
    have hg : gateOK ni acc.length g := by simpa using hok 0 (by simp)
    obtain ⟨b, hb⟩ := gate_eval_total hg (le_of_eq hiv.symm) (le_refl _)
    have hok2 : ∀ k (hk : k < rest.length),
        gateOK ni ((acc ++ [b]).length + k) (rest.get ⟨k, hk⟩) := by
      intro k hk
      have heq : (acc ++ [b]).length + k = acc.length + (k + 1) := by
        simp [List.length_append]
        omega
      rw [heq]
      exact hok (k + 1) (by simpa using Nat.succ_lt_succ hk)
    obtain ⟨gv, hgv, hlen⟩ := ihg (acc ++ [b]) hok2
    refine ⟨gv, ?_, ?_⟩
    · unfold evalGates
      rw [hb]
      exact hgv
    · rw [hlen]
      simp [List.length_append]
      omega

theorem mapM_total {f : α → Option β} : ∀ {l : List α},
    (∀ a ∈ l, ∃ b, f a = some b) → ∃ ys, l.mapM f = some ys ∧ ys.length = l.length := by
  intro l
  induction l with
  | nil => intro _; exact ⟨[], rfl, rfl⟩
  | cons x xs ihx =>
    intro h
    obtain ⟨y, hy⟩ := h x (List.mem_cons_self x xs)
    obtain ⟨ys, hys, hlen⟩ := ihx (fun a ha => h a (List.mem_cons_of_mem x ha))
    refine ⟨y :: ys, ?_, by simp [hlen]⟩
    rw [List.mapM_cons, hy, hys]
    rfl

theorem circuit_eval_total {c : Circuit} (h : feedForward c) {iv : List Bool}
    (hiv : iv.length = c.num_inputs) :
    ∃ out, c.eval iv = some out ∧ out.length = c.outputs.length := by
  obtain ⟨gv, hgv, hlen⟩ := evalGates_total hiv c.gates [] (by simpa using h.1)
  simp only [List.length_nil, Nat.zero_add] at hlen
  have houts : ∀ l ∈ c.outputs, ∃ b, l.eval iv gv = some b := fun l hl =>
    lead_eval_total (h.2 l hl) (le_of_eq hiv.symm) (le_of_eq hlen.symm)
  obtain ⟨out, hout, holen⟩ := mapM_total houts
  refine ⟨out, ?_, holen⟩
  unfold Circuit.eval
  rw [hgv]
  exact hout

/-! ## Circuit enumeration: derived facts -/

theorem mem_enum_circuits_intro {n m t : Nat} {gs : List Gate} {outs : List Lead}
    (hgs : gs ∈ enum_gates n t) (houts : outs ∈ enum_outputs n m t) :
    Circuit.mk n gs outs ∈ enum_circuits n m t := by
  simp only [enum_circuits, List.mem_flatMap, List.mem_map]
  exact ⟨gs, hgs, outs, houts, rfl⟩

/-- Every enumerated circuit satisfies the feed-forward invariant. -/
theorem enum_circuits_wf {n m t : Nat} {c : Circuit} (hc : c ∈ enum_circuits n m t) :
    feedForward c := by
  simp only [enum_circuits, List.mem_flatMap, List.mem_map] at hc
  obtain ⟨gs, hgs, outs, houts, rfl⟩ := hc
  obtain ⟨hlen, hpos, -⟩ := enum_gates_spec t gs hgs
  constructor
  · intro k hk
    obtain ⟨prev, hmem⟩ := hpos k hk
    obtain ⟨h1, h2, -, -⟩ := mem_enum_gate hmem
    have m1 := mem_enum_leads h1
    have m2 := mem_enum_leads h2
    exact ⟨⟨m1.1, m1.2.1⟩, ⟨m2.1, m2.2.1⟩⟩
  · intro l hl
    have hml := (mem_prodRep houts).2 l hl
    have m := mem_enum_leads hml
    refine ⟨m.1, fun h => ?_⟩
    have := m.2.1 h
    simpa [hlen] using this

/-! ## The input-assignment order of `semantics` -/

theorem prodRep_bool_length : ∀ n : Nat, (prodRep [false, true] n).length = 2 ^ n := by
  intro n
  induction n with
  | zero => rfl
  | succ n ih =>
    simp only [prodRep, List.flatMap_cons, List.flatMap_nil, List.append_nil,
      List.length_append, List.length_map, ih]
    rw [Nat.pow_succ]
    omega

theorem prodRep_bool_get : ∀ (n k : Nat), k < 2 ^ n →
    (prodRep [false, true] n).get? k = some (natToBits n k) := by
  intro n
  induction n with
  | zero =>
    intro k hk
    have hk0 : k = 0 := by simpa using hk
    subst hk0
    rfl
  | succ n ih =>
    intro k hk
    have hsplit : prodRep [false, true] (n + 1) =
        (prodRep [false, true] n).map (fun r => false :: r) ++
        (prodRep [false, true] n).map (fun r => true :: r) := by
      simp [prodRep, List.flatMap_cons, List.flatMap_nil]
    rw [hsplit]
    by_cases hc : 2 ^ n ≤ k
    · rw [List.get?_append_right (by simpa [prodRep_bool_length] using hc)]
      simp only [List.length_map, prodRep_bool_length]
      rw [List.get?_map]
      have hk2 : k - 2 ^ n < 2 ^ n := by
        rw [Nat.pow_succ] at hk
        omega
      rw [ih (k - 2 ^ n) hk2]
      have hbits : natToBits (n + 1) k = true :: natToBits n (k - 2 ^ n) := by
        have hdef : natToBits (n + 1) k =
            if 2 ^ n ≤ k then true :: natToBits n (k - 2 ^ n) else false :: natToBits n k := rfl
        rw [hdef, if_pos hc]
      rw [hbits]
      rfl
    · rw [List.get?_append (by simpa [prodRep_bool_length] using Nat.lt_of_not_le hc)]
      rw [List.get?_map]
      rw [ih k (Nat.lt_of_not_le hc)]
      have hbits : natToBits (n + 1) k = false :: natToBits n k := by
        have hdef : natToBits (n + 1) k =
            if 2 ^ n ≤ k then true :: natToBits n (k - 2 ^ n) else false :: natToBits n k := rfl
        rw [hdef, if_neg hc]
      rw [hbits]
      rfl

theorem mapM_eq_some_forall₂ {f : α → Option β} : ∀ {l : List α} {ys : List β},
    l.mapM f = some ys → List.Forall₂ (fun a b => f a = some b) l ys := by
  intro l
  induction l with
  | nil =>
    intro ys h
    rw [List.mapM_nil] at h
    have h2 : ys = [] := by
      injection h with hx
      exact hx.symm
    subst h2
    exact List.Forall₂.nil
  | cons x xs ihx =>
    intro ys h
    rw [List.mapM_cons] at h
    cases hfx : f x with
    | none => rw [hfx] at h; simp at h
    | some y =>
      rw [hfx] at h
      cases hxs : xs.mapM f with
      | none => rw [hxs] at h; simp at h
      | some ys2 =>
        rw [hxs] at h
        have : y :: ys2 = ys := by simpa using h
        subst this
        exact List.Forall₂.cons hfx (ihx hxs)

/-! ## Explorer lemmas -/

theorem semantics_total {c : Circuit} (h : feedForward c) : ∃ bf, semantics c = some bf := by
  unfold semantics
  obtain ⟨ys, hys, -⟩ := mapM_total (f := fun assignments => c.eval assignments)
    (fun a ha => by
      obtain ⟨out, hout, -⟩ := circuit_eval_total h (mem_prodRep ha).1
      exact ⟨out, hout⟩)
  exact ⟨ys, hys⟩

theorem exploreCircuits_total : ∀ (cs : List Circuit) (s : ExploreState),
    (∀ c ∈ cs, ∃ bf, semantics c = some bf) →
    ∃ s2, exploreCircuits cs s = some s2 ∧ s2.reports = s.reports := by
  intro cs
  induction cs with
  | nil => intro s _; exact ⟨s, rfl, rfl⟩
  | cons c rest ih =>
    intro s h
    obtain ⟨bf, hbf⟩ := h c (List.mem_cons_self c rest)
    obtain ⟨s2, hs2, hrep⟩ := ih
      { s with funcs := addFunc s.funcs bf, num_circuits := s.num_circuits + 1 }
      (fun a ha => h a (List.mem_cons_of_mem c ha))
    refine ⟨s2, ?_, hrep⟩
    unfold exploreCircuits
    rw [hbf]
    exact hs2

theorem explore_step_spec (n m g : Nat) (s : ExploreState) :
    ∃ s2, explore_step n m g s = some s2 ∧
      s2.reports = s.reports ++ [(g, s2.funcs.length, s2.num_circuits)] := by
  obtain ⟨s1, hs1, hrep⟩ := exploreCircuits_total (enum_circuits n m g) s
    (fun c hc => semantics_total (enum_circuits_wf hc))
  refine ⟨{ s1 with reports := s1.reports ++ [(g, s1.funcs.length, s1.num_circuits)] }, ?_, ?_⟩
  · unfold explore_step
    rw [hs1]
    rfl
  · simp [hrep]


theorem mem_enum_gates_step (n t : Nat) (sub : List Gate) (g : Gate)
    (hsub : sub ∈ enum_gates n (t + 1))
    (hg : g ∈ enum_gate n (t + 1) (sub.getLastD MIN_GATE)) :
    sub ++ [g] ∈ enum_gates n (t + 2) := by
  simp only [enum_gates, List.mem_flatMap, List.mem_map]
  exact ⟨sub, hsub, g, hg, rfl⟩

theorem Circuit.eval_length {c : Circuit} {iv out : List Bool} (h : c.eval iv = some out) :
    out.length = c.outputs.length := by
  unfold Circuit.eval at h
  cases hgv : evalGates iv c.gates [] with
  | none => rw [hgv] at h; simp at h
  | some gv =>
    rw [hgv] at h
    have h2 : c.outputs.mapM (fun l => l.eval iv gv) = some out := h
    exact ((List.forall₂_iff_get.mp (mapM_eq_some_forall₂ h2)).1).symm

/-! ## The claims -/

/-- C8: for all `n ≥ 0`, `m ≥ 0`, `t ≥ 0`, every circuit yielded by
`enum_circuits n m t` has `num_inputs` equal to `n`, a gate list of
length exactly `t`, and an output list of length exactly `m`. -/
theorem c8_enum_circuits_shape (n m t : Nat) (c : Circuit) (hc : c ∈ enum_circuits n m t) :
    c.num_inputs = n ∧ c.gates.length = t ∧ c.outputs.length = m := by
  simp only [enum_circuits, List.mem_flatMap, List.mem_map] at hc
  obtain ⟨gs, hgs, outs, houts, rfl⟩ := hc
  exact ⟨rfl, (enum_gates_spec t gs hgs).1, (mem_prodRep houts).1⟩

/-- Witness for C8 at the first circuit of `enum_circuits 1 1 0`. -/
theorem c8_enum_circuits_shape_witness :
    (Circuit.mk 1 [] [Lead.mk .TRUE 0 false]) ∈ enum_circuits 1 1 0 ∧
    ((Circuit.mk 1 [] [Lead.mk .TRUE 0 false]).num_inputs = 1 ∧
     (Circuit.mk 1 [] [Lead.mk .TRUE 0 false]).gates.length = 0 ∧
     (Circuit.mk 1 [] [Lead.mk .TRUE 0 false]).outputs.length = 1) :=
  ⟨by decide, c8_enum_circuits_shape 1 1 0 (Circuit.mk 1 [] [Lead.mk .TRUE 0 false]) (by decide)⟩

/-- C3: for every `num_inputs ≥ 0` and `num_gates ≥ 0`, every gate list
yielded by `enum_gates` is strictly increasing under the gate ordering
key `(input2, input1)`: adjacent pairs satisfy `Gate.ltb`. -/
theorem c3_enum_gates_sorted (n t : Nat) (gs : List Gate) (h : gs ∈ enum_gates n t) :
    List.Chain' (fun a b => Gate.ltb a b = true) gs :=
  (enum_gates_spec t gs h).2.2

/-- Witness for C3 at the first gate list of `enum_gates 2 2`. -/
theorem c3_enum_gates_sorted_witness :
    [Gate.mk ⟨.INPUT, 0, false⟩ ⟨.INPUT, 1, false⟩,
     Gate.mk ⟨.INPUT, 0, false⟩ ⟨.GATE, 0, false⟩] ∈ enum_gates 2 2 ∧
    List.Chain' (fun a b => Gate.ltb a b = true)
      [Gate.mk ⟨.INPUT, 0, false⟩ ⟨.INPUT, 1, false⟩,
       Gate.mk ⟨.INPUT, 0, false⟩ ⟨.GATE, 0, false⟩] :=
  ⟨by decide, c3_enum_gates_sorted 2 2 _ (by decide)⟩

/-- C5: every circuit yielded by `enum_circuits n m t` is feed-forward:
a GATE-typed input lead of the gate at position `k` has index `< k`, a
GATE-typed output lead has index `< t`, and the gate list has length `t`. -/
theorem c5_enum_circuits_feed_forward (n m t : Nat) (c : Circuit)
    (hc : c ∈ enum_circuits n m t) :
    (∀ k (hk : k < c.gates.length),
      (((c.gates.get ⟨k, hk⟩).input1.gate_type = .GATE →
          (c.gates.get ⟨k, hk⟩).input1.index < k) ∧
       ((c.gates.get ⟨k, hk⟩).input2.gate_type = .GATE →
          (c.gates.get ⟨k, hk⟩).input2.index < k))) ∧
    (∀ l ∈ c.outputs, l.gate_type = .GATE → l.index < t) ∧
    c.gates.length = t := by
  have hwf := enum_circuits_wf hc
  simp only [enum_circuits, List.mem_flatMap, List.mem_map] at hc
  obtain ⟨gs, hgs, outs, houts, rfl⟩ := hc
  have hlen := (enum_gates_spec t gs hgs).1
  refine ⟨?_, ?_, hlen⟩
  · intro k hk
    have hg := hwf.1 k hk
    exact ⟨hg.1.2, hg.2.2⟩
  · intro l hl hgate
    have := hwf.2 l hl
    have h2 := this.2 hgate
    simpa [hlen] using h2

/-- Witness for C5 at the XOR circuit in `enum_circuits 2 1 3`. -/
theorem c5_enum_circuits_feed_forward_witness :
    xorCircuit ∈ enum_circuits 2 1 3 ∧
    ((∀ k (hk : k < xorCircuit.gates.length),
      (((xorCircuit.gates.get ⟨k, hk⟩).input1.gate_type = .GATE →
          (xorCircuit.gates.get ⟨k, hk⟩).input1.index < k) ∧
       ((xorCircuit.gates.get ⟨k, hk⟩).input2.gate_type = .GATE →
          (xorCircuit.gates.get ⟨k, hk⟩).input2.index < k))) ∧
    (∀ l ∈ xorCircuit.outputs, l.gate_type = .GATE → l.index < 3) ∧
    xorCircuit.gates.length = 3) := by
  have hmem : xorCircuit ∈ enum_circuits 2 1 3 :=
    mem_enum_circuits_intro
      (mem_enum_gates_step 2 1 [xorG0, xorG1] xorG2
        (mem_enum_gates_step 2 0 [xorG0] xorG1 (by decide) (by decide)) (by decide))
      (by decide)
  exact ⟨hmem, c5_enum_circuits_feed_forward 2 1 3 xorCircuit hmem⟩

/-- C6: for every feed-forward circuit and every input list of length
`num_inputs`, `Circuit.eval` is total: it returns `some` list of exactly
`outputs.length` booleans (all index accesses are in bounds). -/
theorem c6_eval_total (c : Circuit) (h : feedForward c) (iv : List Bool)
    (hiv : iv.length = c.num_inputs) :
    ∃ out, c.eval iv = some out ∧ out.length = c.outputs.length :=
  circuit_eval_total h hiv

/-- Witness for C6 at the XOR circuit on input `[false, true]`. -/
theorem c6_eval_total_witness :
    ∃ out, xorCircuit.eval [false, true] = some out ∧
      out.length = xorCircuit.outputs.length :=
  c6_eval_total xorCircuit (by decide) [false, true] (by decide)


/-- Every gate inside any yielded gate list has its two leads in strict
`enum_leads` yield order. -/
theorem enum_gates_oriented {n t : Nat} {gs : List Gate} (h : gs ∈ enum_gates n t) :
    ∀ g ∈ gs, leadEnumLt g.input1 g.input2 := by
  intro g hg
  obtain ⟨i, rfl⟩ := List.mem_iff_get.mp hg
  obtain ⟨prev, hmem⟩ := (enum_gates_spec t gs h).2.1 i.1 i.2
  exact (mem_enum_gate hmem).2.2.2

/-- Two pointwise AND-commutativity-equivalent lists of canonically
oriented gates are equal. -/
theorem forall₂_oriented_eq : ∀ {a b : List Gate}, List.Forall₂ sameUPair a b →
    (∀ g ∈ a, leadEnumLt g.input1 g.input2) →
    (∀ g ∈ b, leadEnumLt g.input1 g.input2) → a = b := by
  intro a
  induction a with
  | nil =>
    intro b hf _ _
    cases hf
    rfl
  | cons x xs ih =>
    intro b hf ha hb
    cases hf with
    | cons hx hrest =>
      congr 1
      · exact oriented_sameUPair_eq (ha x (List.mem_cons_self x xs))
          (hb _ (List.mem_cons_self _ _)) hx
      · exact ih hrest (fun g hg => ha g (List.mem_cons_of_mem x hg))
          (fun g hg => hb g (List.mem_cons_of_mem _ hg))

/-- C4: enumeration is duplicate-free up to AND-commutativity: every
yielded gate has two distinct, non-constant input leads; no unordered
lead pair is yielded twice by `enum_gate`; and no two gate lists yielded
by `enum_gates` are pointwise identical up to swapping `input1`/`input2`. -/
theorem c4_duplicate_free (n p t : Nat) (prev : Gate) :
    (∀ g ∈ enum_gate n p prev,
        g.input1 ≠ g.input2 ∧ g.input1.gate_type ≠ .TRUE ∧ g.input2.gate_type ≠ .TRUE) ∧
    (enum_gate n p prev).Pairwise (fun g g2 => ¬ sameUPair g g2) ∧
    (∀ l1 l2, l1 ∈ enum_gates n t → l2 ∈ enum_gates n t →
      List.Forall₂ sameUPair l1 l2 → l1 = l2) := by
  refine ⟨?_, ?_, ?_⟩
  · intro g hg
    obtain ⟨h1, h2, -, hor⟩ := mem_enum_gate hg
    refine ⟨?_, (mem_enum_leads h1).2.2 rfl, (mem_enum_leads h2).2.2 rfl⟩
    intro heq
    rw [heq] at hor
    exact leadEnumLt_irrefl _ hor
  · unfold enum_gate
    apply List.Pairwise.filter
    rw [List.pairwise_map]
    have hpw := pairwise_combinations2_nodup leadEnumLt_irrefl
      (pairwise_enum_leads n p false)
    exact hpw.imp (fun h hs => h hs)
  · intro l1 l2 h1 h2 hf
    exact forall₂_oriented_eq hf (enum_gates_oriented h1) (enum_gates_oriented h2)

/-- Witness for C4 at `enum_gate 2 0 MIN_GATE` and `enum_gates 2 1`. -/
theorem c4_duplicate_free_witness :
    (xorG0.input1 ≠ xorG0.input2 ∧ xorG0.input1.gate_type ≠ .TRUE ∧
      xorG0.input2.gate_type ≠ .TRUE) ∧ ([xorG0] : List Gate) = [xorG0] :=
  ⟨(c4_duplicate_free 2 0 1 MIN_GATE).1 xorG0 (by decide),
   (c4_duplicate_free 2 0 1 MIN_GATE).2.2 [xorG0] [xorG0] (by decide) (by decide)
     (List.Forall₂.cons (Or.inl ⟨rfl, rfl⟩) List.Forall₂.nil)⟩

/-- C10: every gate with two non-constant leads is strictly greater than
the sentinel `MIN_GATE`, hence the floor filter of the single-gate base
case is vacuous, and `enum_gates n 1` yields every gate formed from an
unordered pair of distinct non-constant leads. -/
theorem c10_min_gate_vacuous (n : Nat) :
    (∀ g : Gate, g.input1.gate_type ≠ .TRUE → g.input2.gate_type ≠ .TRUE →
        Gate.gtb g MIN_GATE = true) ∧
    enum_gate n 0 MIN_GATE =
      (combinations2 (enum_leads n 0 false)).map (fun p => Gate.mk p.1 p.2) ∧
    (∀ l1 l2 : Lead, l1 ∈ enum_leads n 0 false → l2 ∈ enum_leads n 0 false → l1 ≠ l2 →
      [Gate.mk l1 l2] ∈ enum_gates n 1 ∨ [Gate.mk l2 l1] ∈ enum_gates n 1) := by
  have hgt : ∀ g : Gate, g.input1.gate_type ≠ .TRUE → g.input2.gate_type ≠ .TRUE →
      Gate.gtb g MIN_GATE = true := by
    intro g h1 h2
    rcases g with ⟨⟨t1, i1, n1⟩, ⟨t2, i2, n2⟩⟩
    simp only at h1 h2
    cases t1 <;> cases t2 <;>
      simp_all [Gate.gtb, Gate.ltb, Lead.ltb, tripLtb, Lead.key, LeadType.value,
        MIN_GATE, MIN_LEAD, beq_iff_eq]
  have heq : enum_gate n 0 MIN_GATE =
      (combinations2 (enum_leads n 0 false)).map (fun p => Gate.mk p.1 p.2) := by
    unfold enum_gate
    apply List.filter_eq_self.mpr
    intro g hg
    rw [List.mem_map] at hg
    obtain ⟨pr, hpr, rfl⟩ := hg
    obtain ⟨hm1, hm2⟩ := mem_combinations2 hpr
    exact hgt _ ((mem_enum_leads hm1).2.2 rfl) ((mem_enum_leads hm2).2.2 rfl)
  refine ⟨hgt, heq, ?_⟩
  intro l1 l2 h1 h2 hne
  have hgs : enum_gates n 1 = (enum_gate n 0 MIN_GATE).map (fun g => [g]) := rfl
  rcases combinations2_complete h1 h2 hne with hc | hc
  · left
    rw [hgs, heq]
    exact List.mem_map.mpr ⟨Gate.mk l1 l2, List.mem_map.mpr ⟨(l1, l2), hc, rfl⟩, rfl⟩
  · right
    rw [hgs, heq]
    exact List.mem_map.mpr ⟨Gate.mk l2 l1, List.mem_map.mpr ⟨(l2, l1), hc, rfl⟩, rfl⟩

/-- Witness for C10 at two concrete input leads over two inputs. -/
theorem c10_min_gate_vacuous_witness :
    Gate.gtb xorG0 MIN_GATE = true ∧
    ([Gate.mk ⟨.INPUT, 0, false⟩ ⟨.INPUT, 1, false⟩] ∈ enum_gates 2 1 ∨
     [Gate.mk ⟨.INPUT, 1, false⟩ ⟨.INPUT, 0, false⟩] ∈ enum_gates 2 1) :=
  ⟨(c10_min_gate_vacuous 2).1 xorG0 (by decide) (by decide),
   (c10_min_gate_vacuous 2).2.2 ⟨.INPUT, 0, false⟩ ⟨.INPUT, 1, false⟩
     (by decide) (by decide) (by decide)⟩


/-- C9: `semantics` enumerates the `2^n` input assignments in
lexicographic order, `false` before `true`, input index 0 most
significant: row `k` of the truth table is the circuit output on the
`n`-bit binary expansion of `k`, every row has one entry per output, and
for `n = 2` the assignment order is 00, 01, 10, 11. -/
theorem c9_semantics_order (c : Circuit) (bf : BoolFunc) (h : semantics c = some bf) :
    bf.length = 2 ^ c.num_inputs ∧
    (∀ row ∈ bf, row.length = c.outputs.length) ∧
    (∀ k, k < 2 ^ c.num_inputs → bf.get? k = c.eval (natToBits c.num_inputs k)) ∧
    prodRep [false, true] 2 = [[false, false], [false, true], [true, false], [true, true]] := by
  unfold semantics at h
  have hf := mapM_eq_some_forall₂ h
  obtain ⟨hleq, hget⟩ := List.forall₂_iff_get.mp hf
  refine ⟨by rw [← hleq, prodRep_bool_length], ?_, ?_, by decide⟩
  · intro row hrow
    obtain ⟨i, rfl⟩ := List.mem_iff_get.mp hrow
    have hia : i.1 < (prodRep [false, true] c.num_inputs).length := by
      rw [hleq]
      exact i.2
    exact Circuit.eval_length (hget i.1 hia i.2)
  · intro k hk
    have hkl : k < (prodRep [false, true] c.num_inputs).length := by
      rw [prodRep_bool_length]
      exact hk
    have hkb : k < bf.length := by
      rw [← hleq]
      exact hkl
    rw [List.get?_eq_get hkb]
    have hasg : (prodRep [false, true] c.num_inputs).get ⟨k, hkl⟩ =
        natToBits c.num_inputs k := by
      have hpg := prodRep_bool_get c.num_inputs k hk
      rw [List.get?_eq_get hkl] at hpg
      exact Option.some.inj hpg
    rw [← hasg]
    exact (hget k hkl hkb).symm

/-- Witness for C9 at the one-gate-free identity circuit on one input. -/
theorem c9_semantics_order_witness :
    ([[false], [true]] : BoolFunc).length = 2 ^ 1 ∧
    ([[false], [true]] : BoolFunc).get? 1 =
      (Circuit.mk 1 [] [Lead.mk .INPUT 0 false]).eval (natToBits 1 1) := by
  have h := c9_semantics_order (Circuit.mk 1 [] [Lead.mk .INPUT 0 false])
    [[false], [true]] (by decide)
  exact ⟨h.1, h.2.2.1 1 (by decide)⟩

/-- C7: at zero gates with one input and one output, mapping `semantics`
over `enum_circuits 1 1 0` yields exactly the four distinct Boolean
functions of one input (constant-true, identity, constant-false,
negation), matching the total count `(2^1)^(2^1) = 4`. -/
theorem c7_zero_gate_complete :
    (enum_circuits 1 1 0).map semantics =
      [some [[true], [true]], some [[false], [true]],
       some [[false], [false]], some [[true], [false]]] ∧
    ((enum_circuits 1 1 0).filterMap semantics).dedup =
      [[[true], [true]], [[false], [true]], [[false], [false]], [[true], [false]]] ∧
    ((enum_circuits 1 1 0).filterMap semantics).dedup.length = (2 ^ 1) ^ (2 ^ 1) := by
  refine ⟨by decide, by decide, by decide⟩

/-- C2 counterexample: with `n = m = 0` the discovered-function set is
already complete after gate count 0 (its size 1 equals the total count
`(2^0)^(2^0) = 1`), yet the explorer still executes the iteration for
gate count 1 and emits a second progress record: full coverage does not
stop it. -/
theorem c2_explore_counterexample :
    explore_trace 0 0 2 = some ⟨[[[]]], 1, [(0, 1, 1), (1, 1, 1)]⟩ ∧
    ([[[]]] : List BoolFunc).length = (2 ^ 0) ^ (2 ^ 0) := by
  exact ⟨by decide, by decide⟩

/-- C2 (amended): `explore_semantics` has no built-in termination
condition at all: the loop iterates `itertools.count(0)` unconditionally,
so for every `n`, `m` it executes the iteration for every gate count `k`
(emitting one progress record per gate count, forever) and never returns
normally — even after the discovered-function set reaches the total count
`(2^m)^(2^n)`. -/
theorem c2_explore_never_stops (n m k : Nat) :
    ∃ s, explore_trace n m k = some s ∧ s.reports.length = k ∧
      s.reports.map (fun r => r.1) = List.range k := by
  induction k with
  | zero => exact ⟨⟨[], 0, []⟩, rfl, rfl, rfl⟩
  | succ k ih =>
    obtain ⟨s, hs, hlen, hmap⟩ := ih
    obtain ⟨s2, hstep, hrep⟩ := explore_step_spec n m k s
    refine ⟨s2, ?_, ?_, ?_⟩
    · have hdef : explore_trace n m (k + 1) =
          (explore_trace n m k).bind (explore_step n m k) := rfl
      rw [hdef, hs]
      exact hstep
    · rw [hrep, List.length_append, hlen]
      rfl
    · rw [hrep, List.map_append, hmap, List.range_succ]
      rfl

set_option maxRecDepth 100000 in
set_option maxHeartbeats 4000000 in
/-- C1: the XOR function (rows under assignment order 00, 01, 10, 11) is
the semantics of some circuit yielded by `enum_circuits 2 1 3`, and of no
circuit yielded by `enum_circuits 2 1 t` for any `t ≤ 2`. -/
theorem c1_xor_minimal :
    (∃ c ∈ enum_circuits 2 1 3, semantics c = some xorFunc) ∧
    (∀ t, t ≤ 2 → ∀ c ∈ enum_circuits 2 1 t, semantics c ≠ some xorFunc) := by
  constructor
  · refine ⟨xorCircuit, ?_, by decide⟩
    exact mem_enum_circuits_intro
      (mem_enum_gates_step 2 1 [xorG0, xorG1] xorG2
        (mem_enum_gates_step 2 0 [xorG0] xorG1 (by decide) (by decide)) (by decide))
      (by decide)
  · intro t ht
    interval_cases t
    · decide
    · decide
    · decide

end AIG
